import Mathlib

/-
Shallow embedding of the Translation Resolution Engine of
smell-of-curry/mcbe-translate-viewer.

Strings are modelled as `List Char`; JavaScript string primitives
(trim, split, indexOf, substring, startsWith, endsWith, includes,
toLowerCase, replace-first) are embedded as recursive functions over
`List Char`.  JavaScript objects used as string-keyed maps are modelled
as association lists in insertion order: assigning to an existing key
replaces the entry in place, assigning a fresh key appends, which is
exactly the enumeration-order behaviour of JS objects for string keys.
The filesystem is a pair of partial maps (file path to content,
directory path to file-name listing) and the network fetch is an
`Except` parameter, so every operation is a total function of its
inputs.
-/

set_option autoImplicit false

/-- Converts a Lean string literal to the `List Char` string model. -/
def chars (s : String) : List Char := s.toList

/-- Whitespace recognised by JavaScript's trim (the ASCII part; the
Unicode space code points never occur in the inputs considered here). -/
def isJsWhitespace (c : Char) : Bool :=
  c == ' ' || c == '\t' || c == '\n' || c == '\r' || c == '\x0b' || c == '\x0c'

/-- Model of `String.prototype.trim`: remove leading and trailing whitespace. -/
def trimL (s : List Char) : List Char :=
  ((s.dropWhile isJsWhitespace).reverse.dropWhile isJsWhitespace).reverse

/-- Model of `content.split('\n')`.  Always returns at least one piece;
a trailing newline yields a final empty piece, as in JavaScript. -/
def splitLines : List Char → List (List Char)
  | [] => [[]]
  | c :: rest =>
    if c == '\n' then [] :: splitLines rest
    else
      match splitLines rest with
      | [] => [[c]]
      | l :: ls => (c :: l) :: ls

/-- Model of `s.startsWith(pat)`. -/
def startsWithL : List Char → List Char → Bool
  | _, [] => true
  | [], _ :: _ => false
  | c :: s, p :: ps => c == p && startsWithL s ps

/-- Model of `s.endsWith(pat)`. -/
def endsWithL (s pat : List Char) : Bool :=
  startsWithL s.reverse pat.reverse

/-- Model of `s.includes(pat)`: substring containment. -/
def containsSub : List Char → List Char → Bool
  | [], pat => startsWithL [] pat
  | c :: rest, pat => startsWithL (c :: rest) pat || containsSub rest pat

/-- Model of `s.toLowerCase()` (ASCII case mapping, which is all the
engine's inputs use). -/
def toLowerL (s : List Char) : List Char := s.map Char.toLower

/-- Model of `s.replace(pat, '')` for a plain-string pattern: removes the
first occurrence of `pat`, returns `s` unchanged if there is none. -/
def replaceFirstL (pat : List Char) : List Char → List Char
  | [] => []
  | c :: rest =>
    if startsWithL (c :: rest) pat && !pat.isEmpty then (c :: rest).drop pat.length
    else c :: replaceFirstL pat rest

/-- Splits a line at its first `=`: `some (before, after)` when the line
contains `=`, `none` otherwise.  Mirrors
`line.indexOf('=')` / `line.substring(0, i)` / `line.substring(i + 1)`
in langParser.ts and vanillaTranslations.ts. -/
def splitFirstEq : List Char → Option (List Char × List Char)
  | [] => none
  | c :: rest =>
    if c == '=' then some ([], rest)
    else
      match splitFirstEq rest with
      | none => none
      | some (k, v) => some (c :: k, v)

/-- TranslationEntry of langParser.ts: a resolved key, its value, the
1-indexed source line, and the provenance path. -/
structure TranslationEntry where
  key : List Char
  value : List Char
  line : Nat
  filePath : List Char
deriving Repr, DecidableEq

/-- TranslationMap of langParser.ts: a JS object keyed by `key`,
modelled as an association list in insertion order. -/
abbrev TranslationMap := List TranslationEntry

/-- Model of `translations[key] = entry` on a JS object: replace the
entry in place when the key is already present, append otherwise. -/
def mapInsert : TranslationMap → TranslationEntry → TranslationMap
  | [], e => [e]
  | x :: rest, e => if x.key == e.key then e :: rest else x :: mapInsert rest e

/-- Model of `translations[key]` on a JS object: the entry stored under
`key`, if any. -/
def mapLookup (m : TranslationMap) (k : List Char) : Option TranslationEntry :=
  m.find? (fun e => e.key == k)

/-- Model of the JS object spread `{ ...a, ...b }`: assign every entry of
`b`, in order, into a copy of `a`. -/
def spread (a b : TranslationMap) : TranslationMap :=
  b.foldl mapInsert a

/-- Filesystem model: partial map from file path to content, and from
directory path to the list of file names it contains. -/
structure Fs where
  files : List Char → Option (List Char)
  dirs : List Char → Option (List (List Char))

/-- Loop body of the parser of langParser.ts (lines 42-67) and of
parseLangContent in vanillaTranslations.ts (lines 52-77): iterates over
the lines with their 0-based index `i`, trimming each line, skipping
empty lines, `##`/`#` comment lines, lines without `=` and lines with an
empty key, and assigning an entry with 1-indexed line number `i + 1`
into the accumulated map otherwise. -/
def parseLinesGo (filePath : List Char) : Nat → List (List Char) → TranslationMap → TranslationMap
  | _, [], translations => translations
  | i, raw :: rest, translations =>
    let line := trimL raw
    if line.isEmpty || startsWithL line (chars "##") || startsWithL line (chars "#") then
      parseLinesGo filePath (i + 1) rest translations
    else
      match splitFirstEq line with
      | none => parseLinesGo filePath (i + 1) rest translations
      | some (k, v) =>
        if k.isEmpty then parseLinesGo filePath (i + 1) rest translations
        else parseLinesGo filePath (i + 1) rest (mapInsert translations ⟨k, v, i + 1, filePath⟩)

/-- Parses .lang content that is already in memory, recording `filePath`
as the provenance of every entry. -/
def LangParser.parseLangFileContent (filePath content : List Char) : TranslationMap :=
  parseLinesGo filePath 0 (splitLines content) []

/-- parseLangFile of langParser.ts: returns an empty map when the file
does not exist, otherwise parses its content. -/
def LangParser.parseLangFile (fsys : Fs) (filePath : List Char) : TranslationMap :=
  match fsys.files filePath with
  | none => []
  | some content => LangParser.parseLangFileContent filePath content

/-- findAvailableLanguages of langParser.ts: lists the `.lang` files of a
texts directory and strips the extension (via replace-first, as the
source does). -/
def LangParser.findAvailableLanguages (fsys : Fs) (textsDir : List Char) : List (List Char) :=
  match fsys.dirs textsDir with
  | none => []
  | some files =>
    (files.filter (fun f => endsWithL f (chars ".lang"))).map
      (fun f => replaceFirstL (chars ".lang") f)

/-- getLangFilePath of langParser.ts (path.join modelled as posix joining
with a single separator). -/
def LangParser.getLangFilePath (textsDir language : List Char) : List Char :=
  textsDir ++ chars "/" ++ language ++ chars ".lang"

/-- loadTranslations of langParser.ts: parses `<pack>/texts/<language>.lang`. -/
def LangParser.loadTranslations (fsys : Fs) (resourcePackPath language : List Char) : TranslationMap :=
  LangParser.parseLangFile fsys
    (LangParser.getLangFilePath (resourcePackPath ++ chars "/texts") language)

/-- Content of the cache metadata file for one locale: either it parses
to a CacheMetadata record carrying the fetch timestamp, or JSON.parse
fails on it. -/
inductive MetaFile where
  | parsed (fetchedAt : Int)
  | malformed
deriving Repr, DecidableEq

/-- State of VanillaTranslationProvider: the enabled toggle and, per
locale, the cached raw-content file and the metadata file (`none` means
the file does not exist). -/
structure ProviderState where
  enabled : Bool
  cache : List Char → Option (List Char)
  meta : List Char → Option MetaFile

/-- CACHE_DURATION_HOURS of vanillaTranslations.ts. -/
def CACHE_DURATION_HOURS : Int := 24

/-- parseLangContent of vanillaTranslations.ts (lines 48-80): same loop
as langParser.ts, with provenance recorded as `vanilla:<language>`. -/
def VanillaTranslationProvider.parseLangContent (content language : List Char) : TranslationMap :=
  parseLinesGo (chars "vanilla:" ++ language) 0 (splitLines content) []

/-- isCacheValid of vanillaTranslations.ts (lines 111-126): false when
either the metadata file or the content file is missing, false when the
metadata does not parse (the catch branch), and otherwise true exactly
when the age is under 24 hours.  The source computes
`ageHours = (Date.now() - metadata.fetchedAt) / (1000*60*60)` and tests
`ageHours < CACHE_DURATION_HOURS`; over exact arithmetic on integer
epoch-millisecond timestamps this is the integer inequality below. -/
def VanillaTranslationProvider.isCacheValid
    (st : ProviderState) (language : List Char) (now : Int) : Bool :=
  match st.meta language, st.cache language with
  | some (MetaFile.parsed fetchedAt), some _ =>
    decide (now - fetchedAt < CACHE_DURATION_HOURS * (1000 * 60 * 60))
  | some MetaFile.malformed, some _ => false
  | _, _ => false

/-- readFromCache of vanillaTranslations.ts: the cached content file for
a locale, if it exists. -/
def VanillaTranslationProvider.readFromCache
    (st : ProviderState) (language : List Char) : Option (List Char) :=
  st.cache language

/-- JavaScript truthiness on an optional string: the empty string is
falsy, so `if (cached)` treats an existing empty cache file as absent. -/
def jsTruthy : Option (List Char) → Option (List Char)
  | some [] => none
  | some (c :: cs) => some (c :: cs)
  | none => none

/-- writeToCache of vanillaTranslations.ts: overwrite the content file
and the metadata file of one locale, stamping the current time. -/
def VanillaTranslationProvider.writeToCache
    (st : ProviderState) (language content : List Char) (now : Int) : ProviderState :=
  ⟨st.enabled,
   fun l => if l == language then some content else st.cache l,
   fun l => if l == language then some (MetaFile.parsed now) else st.meta l⟩

/-- loadTranslations of vanillaTranslations.ts (lines 171-206).  The
network fetch is passed in as its outcome (`Except.ok content` for a
successful 200 body after redirects, `Except.error ()` for a network
error, a bad status, or a redirect without a location).  Returns the
produced table together with the provider state after the call. -/
def VanillaTranslationProvider.loadTranslations
    (st : ProviderState) (language : List Char) (now : Int)
    (fetch : Except Unit (List Char)) : TranslationMap × ProviderState :=
  if !st.enabled then ([], st)
  else
    match
      (if VanillaTranslationProvider.isCacheValid st language now then
        jsTruthy (VanillaTranslationProvider.readFromCache st language)
      else none) with
    | some cached => (VanillaTranslationProvider.parseLangContent cached language, st)
    | none =>
      match fetch with
      | Except.ok content =>
        (VanillaTranslationProvider.parseLangContent content language,
         VanillaTranslationProvider.writeToCache st language content now)
      | Except.error _ =>
        match jsTruthy (VanillaTranslationProvider.readFromCache st language) with
        | some staleCache => (VanillaTranslationProvider.parseLangContent staleCache language, st)
        | none => ([], st)

/-- getAvailableLanguages of vanillaTranslations.ts (lines 155-165): the
hardcoded known-locale list of the baseline provider. -/
def VanillaTranslationProvider.getAvailableLanguages : List (List Char) :=
  [chars "en_US", chars "en_GB", chars "de_DE", chars "es_ES", chars "es_MX",
   chars "fr_FR", chars "fr_CA", chars "it_IT", chars "ja_JP", chars "ko_KR",
   chars "nl_NL", chars "pl_PL", chars "pt_BR", chars "pt_PT", chars "ru_RU",
   chars "zh_CN", chars "zh_TW", chars "tr_TR", chars "uk_UA", chars "ar_SA",
   chars "bg_BG", chars "cs_CZ", chars "da_DK", chars "el_GR", chars "fi_FI",
   chars "hu_HU", chars "id_ID", chars "nb_NO", chars "ro_RO", chars "sk_SK",
   chars "sv_SE", chars "th_TH", chars "vi_VN"]

/-- ResourcePackInfo of resourcePackScanner.ts. -/
structure ResourcePackInfo where
  path : List Char
  name : List Char
  hasTexts : Bool
  textsPath : List Char
deriving Repr, DecidableEq

/-- Model of `Set.prototype.add`: append when not already present. -/
def setAdd (l : List (List Char)) (x : List Char) : List (List Char) :=
  if l.contains x then l else l ++ [x]

/-- Ascending comparison of two strings by code point, as
`Array.prototype.sort` compares strings. -/
def lexLe : List Char → List Char → Bool
  | [], _ => true
  | _ :: _, [] => false
  | a :: as, b :: bs =>
    if a.val < b.val then true
    else if b.val < a.val then false
    else lexLe as bs

/-- Insertion step of the ascending sort. -/
def insertSorted (x : List Char) : List (List Char) → List (List Char)
  | [] => [x]
  | y :: ys => if lexLe x y then x :: y :: ys else y :: insertSorted x ys

/-- Model of `Array.from(set).sort()`: sort ascending by locale code. -/
def sortLocales (l : List (List Char)) : List (List Char) :=
  l.foldr insertSorted []

/-- Result of one completed refresh of TranslationManager: the merged
table and the available-languages list it installs. -/
structure RefreshResult where
  translations : TranslationMap
  availableLanguages : List (List Char)
deriving Repr, DecidableEq

/-- Resource-pack loop of TranslationManager.refresh
(translationManager.ts lines 73-85): for each pack with a texts
directory, in order, collect its locales into the language set and
spread its parsed table over the accumulated table. -/
def TranslationManager.refreshPacksGo (fsys : Fs) (language : List Char) :
    List ResourcePackInfo → TranslationMap → List (List Char) →
    TranslationMap × List (List Char)
  | [], translations, allLanguages => (translations, allLanguages)
  | pack :: rest, translations, allLanguages =>
    if !pack.hasTexts then
      TranslationManager.refreshPacksGo fsys language rest translations allLanguages
    else
      let languages := LangParser.findAvailableLanguages fsys pack.textsPath
      let allLanguages2 := languages.foldl setAdd allLanguages
      let packTranslations := LangParser.loadTranslations fsys pack.path language
      TranslationManager.refreshPacksGo fsys language rest
        (spread translations packTranslations) allLanguages2

/-- refresh of TranslationManager (translationManager.ts lines 44-89),
as a function of the provider (with the outcome of its network fetch),
the discovered resource packs, the filesystem and the current language.
When a provider is present the try block first installs the parsed
baseline table (line 58).  Line 61 then calls the async
getAvailableLanguages without await and line 62 calls forEach on the
returned Promise; the resulting TypeError is caught by the catch at
line 67, so no baseline locale is ever added to allLanguages while the
already-assigned baseline table survives.  The pack loop and the final
sorted assignment follow. -/
def TranslationManager.refresh
    (provider : Option ProviderState) (fetch : Except Unit (List Char)) (now : Int)
    (fsys : Fs) (packs : List ResourcePackInfo) (language : List Char) : RefreshResult :=
  let start : TranslationMap × List (List Char) :=
    match provider with
    | none => ([], [])
    | some st =>
      let vanillaTranslations := (VanillaTranslationProvider.loadTranslations st language now fetch).1
      (spread [] vanillaTranslations, [])
  let result := TranslationManager.refreshPacksGo fsys language packs start.1 start.2
  ⟨result.1, sortLocales result.2⟩

/-- Match predicate of searchTranslations (translationManager.ts lines
170-174): the lower-cased key or value contains the lower-cased query. -/
def entryMatches (lowerQuery : List Char) (e : TranslationEntry) : Bool :=
  containsSub (toLowerL e.key) lowerQuery || containsSub (toLowerL e.value) lowerQuery

/-- Loop of searchTranslations (translationManager.ts lines 169-178):
skip entries matching neither by key nor by value; push a match and stop
as soon as the result count reaches the limit.  The count check runs
after the push, so a limit of zero or less still admits one entry. -/
def searchGo (lowerQuery : List Char) (limit : Int) :
    List TranslationEntry → List TranslationEntry → List TranslationEntry
  | [], results => results
  | e :: rest, results =>
    if !(containsSub (toLowerL e.key) lowerQuery) &&
        !(containsSub (toLowerL e.value) lowerQuery) then
      searchGo lowerQuery limit rest results
    else
      let results2 := results ++ [e]
      if (results2.length : Int) ≥ limit then results2
      else searchGo lowerQuery limit rest results2

/-- searchTranslations of TranslationManager (translationManager.ts
lines 165-181): iterate the table in insertion order with the
lower-cased query. -/
def TranslationManager.searchTranslations
    (translations : TranslationMap) (query : List Char) (limit : Int) :
    List TranslationEntry :=
  searchGo (toLowerL query) limit translations []

/-- Shape of every entry the parser emits, relative to the split lines of
the input: the recorded line number is 1-indexed and addresses a real
input line; that line, after trimming, is nonempty, does not start with
a comment mark, and is exactly `key ++ "=" ++ value` with no `=` and at
least one character in the key. -/
def LineShape (allLines : List (List Char)) (e : TranslationEntry) : Prop :=
  1 ≤ e.line ∧
  ∃ raw, allLines.get? (e.line - 1) = some raw ∧
    trimL raw ≠ [] ∧
    (∀ c cs, trimL raw = c :: cs → c ≠ '#') ∧
    trimL raw = e.key ++ '=' :: e.value ∧
    '=' ∉ e.key ∧
    e.key ≠ []

/-- One iteration of the parser loop as a partial result: the entry the
line at 0-based index `i` contributes, if any. -/
def lineEntry (filePath : List Char) (i : Nat) (raw : List Char) : Option TranslationEntry :=
  let line := trimL raw
  if line.isEmpty || startsWithL line (chars "##") || startsWithL line (chars "#") then none
  else
    match splitFirstEq line with
    | none => none
    | some (k, v) => if k.isEmpty then none else some ⟨k, v, i + 1, filePath⟩

/-- The sequence of entries the parser inserts, in file order. -/
def lineEntries (filePath : List Char) : Nat → List (List Char) → List TranslationEntry
  | _, [] => []
  | i, raw :: rest =>
    match lineEntry filePath i raw with
    | none => lineEntries filePath (i + 1) rest
    | some e => e :: lineEntries filePath (i + 1) rest

/-- The last entry of a sequence carrying a given key, if any. -/
def lastEntryFor (k : List Char) : List TranslationEntry → Option TranslationEntry
  | [] => none
  | e :: rest =>
    match lastEntryFor k rest with
    | some x => some x
    | none => if e.key == k then some e else none

/-- Filesystem with two resource packs, each holding one locale file for
locale `L`; pack A defines keys k and j, pack B redefines k. -/
def demoFs : Fs :=
  ⟨fun p =>
    if p == chars "/A/texts/L.lang" then some (chars "k=A\nj=A")
    else if p == chars "/B/texts/L.lang" then some (chars "k=B")
    else none,
   fun p =>
    if p == chars "/A/texts" then some [chars "L.lang"]
    else if p == chars "/B/texts" then some [chars "L.lang"]
    else none⟩

/-- Filesystem with no files at all. -/
def emptyFs : Fs := ⟨fun _ => none, fun _ => none⟩

/-- Discovered pack A. -/
def packA : ResourcePackInfo := ⟨chars "/A", chars "A", true, chars "/A/texts"⟩

/-- Discovered pack B. -/
def packB : ResourcePackInfo := ⟨chars "/B", chars "B", true, chars "/B/texts"⟩

/-- Enabled provider with an empty cache directory. -/
def baseProvider : ProviderState := ⟨true, fun _ => none, fun _ => none⟩

/-- Enabled provider holding a cached content file `k=v` and a metadata
file fetched at epoch time 0 for locale en_US. -/
def cachedProvider : ProviderState :=
  ⟨true,
   fun l => if l == chars "en_US" then some (chars "k=v") else none,
   fun l => if l == chars "en_US" then some (MetaFile.parsed 0) else none⟩

/-- Table with two entries whose values contain the word world. -/
def twoWorldMap : TranslationMap :=
  [⟨chars "greet", chars "Hello world", 1, chars "f"⟩,
   ⟨chars "bye", chars "Goodbye world", 2, chars "f"⟩]

/-- Table with a single entry whose value is x. -/
def oneMap : TranslationMap := [⟨chars "k", chars "x", 1, chars "f"⟩]

/-- Lookup through a stack of tables laid down in order over a base
lookup result: the answer of the last table that defines the key wins,
falling back to the base when none does.  This is the reference meaning
of "later sources strictly override earlier ones and the baseline". -/
def overlayLookup (base : Option TranslationEntry) (tables : List TranslationMap)
    (k : List Char) : Option TranslationEntry :=
  tables.foldl
    (fun acc t =>
      match mapLookup t k with
      | some e => some e
      | none => acc)
    base

/-- The baseline table a refresh starts from: the provider's load result
when a provider is installed, empty otherwise. -/
def baselineTable (provider : Option ProviderState) (fetch : Except Unit (List Char))
    (now : Int) (language : List Char) : TranslationMap :=
  match provider with
  | none => []
  | some st => (VanillaTranslationProvider.loadTranslations st language now fetch).1

/-- A table has pairwise-distinct keys.  Every table the engine builds
has this shape, since a JS object holds one entry per key. -/
abbrev keysUnique (m : TranslationMap) : Prop :=
  m.Pairwise (fun a b => a.key ≠ b.key)

theorem splitFirstEq_eq_some (l : List Char) :
    ∀ k v, splitFirstEq l = some (k, v) → l = k ++ '=' :: v ∧ '=' ∉ k := by
  induction l with
  | nil => intro k v h; simp [splitFirstEq] at h
  | cons c rest ih =>
    intro k v h
    rw [splitFirstEq] at h
    split at h
    · rename_i hc
      obtain ⟨hk, hv⟩ := Prod.mk.injEq .. ▸ Option.some.inj h
      subst hk; subst hv
      simp [eq_of_beq hc]
    · rename_i hc
      cases hs : splitFirstEq rest with
      | none => rw [hs] at h; simp at h
      | some kv =>
        obtain ⟨k1, v1⟩ := kv
        rw [hs] at h
        obtain ⟨hk, hv⟩ := Prod.mk.injEq .. ▸ Option.some.inj h
        subst hk; subst hv
        obtain ⟨hl, hnotin⟩ := ih k1 v1 hs
        have hcne : c ≠ '=' := by
          intro hcc; rw [hcc] at hc; simp at hc
        constructor
        · rw [hl]; rfl
        · intro hmem
          rcases List.mem_cons.mp hmem with h1 | h1
          · exact hcne h1.symm
          · exact hnotin h1

theorem mem_mapInsert (m : TranslationMap) (x e : TranslationEntry) :
    e ∈ mapInsert m x → e = x ∨ e ∈ m := by
  induction m with
  | nil => intro h; simp [mapInsert] at h; exact Or.inl h
  | cons y rest ih =>
    intro h
    rw [mapInsert] at h
    split at h
    · rcases List.mem_cons.mp h with h1 | h1
      · exact Or.inl h1
      · exact Or.inr (List.mem_cons_of_mem y h1)
    · rcases List.mem_cons.mp h with h1 | h1
      · exact Or.inr (h1 ▸ List.mem_cons_self y rest)
      · rcases ih h1 with h2 | h2
        · exact Or.inl h2
        · exact Or.inr (List.mem_cons_of_mem y h2)

theorem parseLinesGo_sound (fp : List Char) (allLines : List (List Char)) :
    ∀ (lines : List (List Char)) (i : Nat) (m : TranslationMap),
      (∀ j, lines.get? j = allLines.get? (i + j)) →
      (∀ e ∈ m, LineShape allLines e) →
      ∀ e ∈ parseLinesGo fp i lines m, LineShape allLines e := by
  intro lines
  induction lines with
  | nil => intro i m _ hm e he; rw [parseLinesGo] at he; exact hm e he
  | cons raw rest ih =>
    intro i m hj hm e he
    have hrest : ∀ j, rest.get? j = allLines.get? ((i + 1) + j) := by
      intro j
      have h1 := hj (j + 1)
      have h2 : i + (j + 1) = (i + 1) + j := by omega
      simpa [h2] using h1
    have hraw : allLines.get? i = some raw := by
      have h1 := hj 0
      simpa using h1.symm
    rw [parseLinesGo] at he
    split at he
    · exact ih (i + 1) m hrest hm e he
    · rename_i hguard
      simp only [Bool.or_eq_true, not_or, Bool.not_eq_true] at hguard
      obtain ⟨⟨hempty, _⟩, hhash⟩ := hguard
      split at he
      · exact ih (i + 1) m hrest hm e he
      · rename_i k v hs
        split at he
        · exact ih (i + 1) m hrest hm e he
        · rename_i hk
          refine ih (i + 1) _ hrest ?_ e he
          intro e' he'
          rcases mem_mapInsert m _ e' he' with rfl | h2
          · refine ⟨by show 1 ≤ i + 1; omega, raw,
              by show allLines.get? (i + 1 - 1) = some raw; simpa using hraw, ?_, ?_, ?_, ?_, ?_⟩
            · intro hnil
              rw [hnil] at hempty
              simp at hempty
            · intro c cs hcc hch
              rw [hcc, hch] at hhash
              have hsw : startsWithL ('#' :: cs) (chars "#") = true := by
                simp [chars, startsWithL]
              rw [hsw] at hhash
              exact Bool.noConfusion hhash
            · exact (splitFirstEq_eq_some _ k v hs).1
            · exact (splitFirstEq_eq_some _ k v hs).2
            · intro hnil
              have hk2 : k = [] := hnil
              rw [hk2] at hk
              simp at hk
          · exact hm e' h2

/-- Claim C5: for every input content the parser skips lines that trim to
empty or to a comment starting with `#` (comment lines never appear in
the output), every produced entry comes from splitting its line at the
first `=` with the value taken verbatim (including any further `=`), and
line numbers are recorded 1-indexed; parsing "## note\na.b=Hello=World\n"
yields exactly one entry, key "a.b", value "Hello=World", line 2. -/
theorem parser_skips_comments_and_splits :
    (∀ content language e,
        e ∈ VanillaTranslationProvider.parseLangContent content language →
          LineShape (splitLines content) e)
    ∧ VanillaTranslationProvider.parseLangContent (chars "## note\na.b=Hello=World\n") (chars "L")
        = [⟨chars "a.b", chars "Hello=World", 2, chars "vanilla:L"⟩] := by
  constructor
  · intro content language e he
    exact parseLinesGo_sound (chars "vanilla:" ++ language) (splitLines content)
      (splitLines content) 0 [] (fun j => by simp) (by simp) e he
  · decide

/-- Witness for C5 at the one-line input "a=b". -/
theorem parser_skips_comments_and_splits_witness :
    (⟨chars "a", chars "b", 1, chars "vanilla:L"⟩ : TranslationEntry)
      ∈ VanillaTranslationProvider.parseLangContent (chars "a=b") (chars "L")
    ∧ LineShape (splitLines (chars "a=b")) ⟨chars "a", chars "b", 1, chars "vanilla:L"⟩ :=
  ⟨by decide,
   parser_skips_comments_and_splits.1 (chars "a=b") (chars "L") _ (by decide)⟩

/-- Claim C6 counterexample: the parser trims the whole line before
splitting, so the line " k=v " is stored with key "k" and value "v" —
the leading whitespace before the key and the trailing whitespace after
the value are not stored verbatim as the claim asserts. -/
theorem parser_line_trim_counterexample :
    LangParser.parseLangFileContent (chars "f") (chars " k=v ")
      = [⟨chars "k", chars "v", 1, chars "f"⟩]
    ∧ mapLookup (LangParser.parseLangFileContent (chars "f") (chars " k=v ")) (chars " k") = none
    ∧ mapLookup (LangParser.parseLangFileContent (chars "f") (chars " k=v ")) (chars "k")
        = some ⟨chars "k", chars "v", 1, chars "f"⟩
    ∧ chars "v" ≠ chars "v " := by decide

/-- Claim C6 as amended: for every non-skipped line the split happens on
the line after trimming surrounding whitespace; within the trimmed line
no further trimming is applied, so whitespace adjacent to the first `=`
is stored verbatim in the key or value ("k = v" stores key "k " and
value " v"). -/
theorem parser_split_after_trim :
    (∀ filePath content e,
        e ∈ LangParser.parseLangFileContent filePath content →
          ∃ raw ∈ splitLines content,
            trimL raw = e.key ++ '=' :: e.value ∧ '=' ∉ e.key)
    ∧ LangParser.parseLangFileContent (chars "f") (chars "k = v")
        = [⟨chars "k ", chars " v", 1, chars "f"⟩] := by
  constructor
  · intro fp content e he
    have h := parseLinesGo_sound fp (splitLines content) (splitLines content) 0 []
      (fun j => by simp) (by simp) e he
    obtain ⟨_, raw, hraw, _, _, hsplit, hne, _⟩ := h
    exact ⟨raw, List.get?_mem hraw, hsplit, hne⟩
  · decide

/-- Witness for the amended C6 at the input "k = v". -/
theorem parser_split_after_trim_witness :
    (⟨chars "k ", chars " v", 1, chars "f"⟩ : TranslationEntry)
      ∈ LangParser.parseLangFileContent (chars "f") (chars "k = v")
    ∧ ∃ raw ∈ splitLines (chars "k = v"),
        trimL raw = chars "k " ++ '=' :: chars " v" ∧ '=' ∉ chars "k " :=
  ⟨by decide,
   parser_split_after_trim.1 (chars "f") (chars "k = v")
     ⟨chars "k ", chars " v", 1, chars "f"⟩ (by decide)⟩

theorem mapLookup_mapInsert (m : TranslationMap) (x : TranslationEntry) (k : List Char) :
    mapLookup (mapInsert m x) k = if x.key == k then some x else mapLookup m k := by
  induction m with
  | nil =>
    cases hxk : x.key == k <;> simp [mapInsert, mapLookup, List.find?, hxk]
  | cons y rest ih =>
    rw [mapInsert]
    cases hyx : y.key == x.key with
    | true =>
      rw [if_pos rfl]
      have hyx2 : y.key = x.key := by simpa using hyx
      cases hxk : x.key == k with
      | true => simp [mapLookup, List.find?, hxk]
      | false =>
        have hyk : (y.key == k) = false := by rw [hyx2]; exact hxk
        simp [mapLookup, List.find?, hxk, hyk]
    | false =>
      rw [if_neg (by simp)]
      cases hyk : y.key == k with
      | true =>
        have hxk : (x.key == k) = false := by
          have h1 : y.key = k := by simpa using hyk
          have h2 : ¬(y.key = x.key) := by simpa using hyx
          have h3 : ¬(x.key = k) := fun h => h2 (by rw [h1, h])
          simpa using h3
        simp [mapLookup, List.find?, hxk, hyk]
      | false =>
        simp only [mapLookup, List.find?, hyk, cond_false] at ih ⊢
        rw [ih]

theorem mapLookup_foldl_mapInsert :
    ∀ (l : List TranslationEntry) (m : TranslationMap) (k : List Char),
      mapLookup (l.foldl mapInsert m) k =
        match lastEntryFor k l with
        | some x => some x
        | none => mapLookup m k := by
  intro l
  induction l with
  | nil => intro m k; rfl
  | cons e rest ih =>
    intro m k
    rw [List.foldl_cons, ih (mapInsert m e) k, lastEntryFor, mapLookup_mapInsert]
    cases lastEntryFor k rest with
    | some x => rfl
    | none =>
      by_cases hek : e.key = k
      · simp [hek]
      · simp [hek]

theorem parseLinesGo_eq_foldl (fp : List Char) :
    ∀ (lines : List (List Char)) (i : Nat) (m : TranslationMap),
      parseLinesGo fp i lines m = (lineEntries fp i lines).foldl mapInsert m := by
  intro lines
  induction lines with
  | nil => intro i m; rfl
  | cons raw rest ih =>
    intro i m
    simp only [parseLinesGo, lineEntries, lineEntry]
    cases hguard : ((trimL raw).isEmpty || startsWithL (trimL raw) (chars "##")
        || startsWithL (trimL raw) (chars "#")) with
    | true => simpa using ih (i + 1) m
    | false =>
      cases hs : splitFirstEq (trimL raw) with
      | none => simpa using ih (i + 1) m
      | some kv =>
        obtain ⟨k, v⟩ := kv
        by_cases hk : k = []
        · simpa [hk] using ih (i + 1) m
        · simpa [hk] using ih (i + 1) (mapInsert m ⟨k, v, i + 1, fp⟩)

/-- Claim C7: when one parser input contains the same key on several
lines, the resulting table holds the value and line number of the last
occurrence: in general a lookup in the parsed table returns the last
entry the line sequence produced for that key, and parsing "k=1\nk=2\n"
yields exactly key "k" with value "2" and line number 2. -/
theorem parser_duplicate_last_wins :
    (∀ filePath content k,
        mapLookup (LangParser.parseLangFileContent filePath content) k
          = lastEntryFor k (lineEntries filePath 0 (splitLines content)))
    ∧ LangParser.parseLangFileContent (chars "f") (chars "k=1\nk=2\n")
        = [⟨chars "k", chars "2", 2, chars "f"⟩] := by
  constructor
  · intro fp content k
    rw [LangParser.parseLangFileContent, parseLinesGo_eq_foldl, mapLookup_foldl_mapInsert]
    cases lastEntryFor k (lineEntries fp 0 (splitLines content)) with
    | some x => rfl
    | none => rfl
  · decide

/-- Claim C2: a load whose network fetch fails never surfaces the error
(the embedded operation is total): when any cached content file exists
for the locale — fresh or stale — its parse is returned, and when none
exists an empty table is returned. -/
theorem load_translations_fetch_failure :
    ∀ (st : ProviderState) (language : List Char) (now : Int),
      st.enabled = true →
      (VanillaTranslationProvider.loadTranslations st language now (Except.error ())).1
        = match st.cache language with
          | some c => VanillaTranslationProvider.parseLangContent c language
          | none => [] := by
  intro st language now hen
  cases hc : st.cache language with
  | none =>
    cases hv : VanillaTranslationProvider.isCacheValid st language now <;>
      simp [VanillaTranslationProvider.loadTranslations, hen, hv,
        VanillaTranslationProvider.readFromCache, hc, jsTruthy]
  | some c =>
    cases c with
    | nil =>
      cases hv : VanillaTranslationProvider.isCacheValid st language now <;>
        simp [VanillaTranslationProvider.loadTranslations, hen, hv,
          VanillaTranslationProvider.readFromCache, hc, jsTruthy] <;>
        rfl
    | cons ch cs =>
      cases hv : VanillaTranslationProvider.isCacheValid st language now <;>
        simp [VanillaTranslationProvider.loadTranslations, hen, hv,
          VanillaTranslationProvider.readFromCache, hc, jsTruthy]

/-- Witness for C2: with a cached content file present and the fetch
failing, the load returns the parse of the cached content. -/
theorem load_translations_fetch_failure_witness :
    cachedProvider.enabled = true
    ∧ (VanillaTranslationProvider.loadTranslations cachedProvider (chars "en_US")
          999999999999 (Except.error ())).1
        = match cachedProvider.cache (chars "en_US") with
          | some c => VanillaTranslationProvider.parseLangContent c (chars "en_US")
          | none => [] :=
  ⟨rfl, load_translations_fetch_failure cachedProvider (chars "en_US") 999999999999 rfl⟩

/-- Claim C4: a cache record is fresh exactly when the content file and
metadata file both exist, the metadata parses, and the elapsed time
since the recorded fetch timestamp is strictly under 24 hours; a record
written at T is valid at T+23h and invalid at T+25h, and missing or
unparseable metadata is simply not fresh (the check is a total function
returning false, never an error). -/
theorem cache_freshness_window :
    (∀ (st : ProviderState) (language : List Char) (now : Int),
        VanillaTranslationProvider.isCacheValid st language now = true ↔
          ∃ t c, st.meta language = some (MetaFile.parsed t)
            ∧ st.cache language = some c
            ∧ now - t < 24 * (1000 * 60 * 60))
    ∧ (∀ (st : ProviderState) (language : List Char) (T : Int) (c : List Char),
        st.meta language = some (MetaFile.parsed T) →
        st.cache language = some c →
          VanillaTranslationProvider.isCacheValid st language (T + 23 * (1000 * 60 * 60)) = true
          ∧ VanillaTranslationProvider.isCacheValid st language (T + 25 * (1000 * 60 * 60)) = false)
    ∧ (∀ (st : ProviderState) (language : List Char) (now : Int),
        (st.meta language = none ∨ st.meta language = some MetaFile.malformed) →
          VanillaTranslationProvider.isCacheValid st language now = false) := by
  refine ⟨?_, ?_, ?_⟩
  · intro st language now
    rw [VanillaTranslationProvider.isCacheValid]
    cases hm : st.meta language with
    | none => simp
    | some mf =>
      cases mf with
      | malformed => cases hc : st.cache language <;> simp
      | parsed t =>
        cases hc : st.cache language with
        | none => simp
        | some c =>
          simp [CACHE_DURATION_HOURS]
  · intro st language T c hm hc
    constructor <;>
      simp [VanillaTranslationProvider.isCacheValid, hm, hc, CACHE_DURATION_HOURS]
  · intro st language now h
    rcases h with h | h <;>
      cases hc : st.cache language <;>
        simp [VanillaTranslationProvider.isCacheValid, h, hc]

/-- Witness for C4: the concrete cached provider, fetched at epoch 0, is
fresh 23 hours later and stale 25 hours later. -/
theorem cache_freshness_window_witness :
    VanillaTranslationProvider.isCacheValid cachedProvider (chars "en_US")
        (0 + 23 * (1000 * 60 * 60)) = true
    ∧ VanillaTranslationProvider.isCacheValid cachedProvider (chars "en_US")
        (0 + 25 * (1000 * 60 * 60)) = false :=
  cache_freshness_window.2.1 cachedProvider (chars "en_US") 0 (chars "k=v")
    (by decide) (by decide)

theorem keysUnique_mapInsert :
    ∀ (m : TranslationMap) (e : TranslationEntry), keysUnique m → keysUnique (mapInsert m e) := by
  intro m e
  induction m with
  | nil => intro _; simp [mapInsert]
  | cons x rest ih =>
    intro hu
    obtain ⟨hx, hrest⟩ := List.pairwise_cons.mp hu
    rw [mapInsert]
    cases hxe : x.key == e.key with
    | true =>
      rw [if_pos rfl]
      refine List.pairwise_cons.mpr ⟨?_, hrest⟩
      intro y hy
      have h1 : x.key = e.key := by simpa using hxe
      rw [← h1]
      exact hx y hy
    | false =>
      rw [if_neg (by simp)]
      refine List.pairwise_cons.mpr ⟨?_, ih hrest⟩
      intro y hy
      rcases mem_mapInsert rest e y hy with rfl | h2
      · simpa using hxe
      · exact hx y h2

theorem keysUnique_parseLinesGo (fp : List Char) :
    ∀ (lines : List (List Char)) (i : Nat) (m : TranslationMap),
      keysUnique m → keysUnique (parseLinesGo fp i lines m) := by
  intro lines
  induction lines with
  | nil => intro i m h; rw [parseLinesGo]; exact h
  | cons raw rest ih =>
    intro i m h
    rw [parseLinesGo]
    split
    · exact ih (i + 1) m h
    · split
      · exact ih (i + 1) m h
      · split
        · exact ih (i + 1) m h
        · exact ih (i + 1) _ (keysUnique_mapInsert m _ h)

theorem keysUnique_langParserLoad (fsys : Fs) (p language : List Char) :
    keysUnique (LangParser.loadTranslations fsys p language) := by
  rw [LangParser.loadTranslations, LangParser.parseLangFile]
  split
  · exact List.Pairwise.nil
  · exact keysUnique_parseLinesGo _ _ 0 [] List.Pairwise.nil

theorem keysUnique_vanillaLoad (st : ProviderState) (language : List Char) (now : Int)
    (fetch : Except Unit (List Char)) :
    keysUnique ((VanillaTranslationProvider.loadTranslations st language now fetch).1) := by
  rw [VanillaTranslationProvider.loadTranslations.eq_def]
  split
  · exact List.Pairwise.nil
  · split
    · exact keysUnique_parseLinesGo _ _ 0 [] List.Pairwise.nil
    · split
      · exact keysUnique_parseLinesGo _ _ 0 [] List.Pairwise.nil
      · split
        · exact keysUnique_parseLinesGo _ _ 0 [] List.Pairwise.nil
        · exact List.Pairwise.nil

theorem lastEntryFor_eq_mapLookup :
    ∀ (m : TranslationMap) (k : List Char), keysUnique m →
      lastEntryFor k m = mapLookup m k := by
  intro m
  induction m with
  | nil => intro k _; rfl
  | cons e rest ih =>
    intro k hu
    obtain ⟨hne, hu2⟩ := List.pairwise_cons.mp hu
    rw [lastEntryFor, ih k hu2]
    cases hr : mapLookup rest k with
    | some x =>
      have hr2 : rest.find? (fun y => y.key == k) = some x := hr
      have hxk : x.key = k := by simpa using List.find?_some hr2
      have hmem : x ∈ rest := List.mem_of_find?_eq_some hr2
      have hek : (e.key == k) = false := by
        have h2 := hne x hmem
        rw [← hxk]
        simpa using h2
      simp [mapLookup, List.find?, hek, hr2]
    | none =>
      have hr2 : rest.find? (fun y => y.key == k) = none := hr
      cases hek : e.key == k <;> simp [mapLookup, List.find?, hek, hr2]

theorem mapLookup_spread (a b : TranslationMap) (k : List Char) :
    mapLookup (spread a b) k =
      match lastEntryFor k b with
      | some e => some e
      | none => mapLookup a k :=
  mapLookup_foldl_mapInsert b a k

theorem refreshPacksGo_lookup (fsys : Fs) (language : List Char) :
    ∀ (packs : List ResourcePackInfo) (t : TranslationMap) (l : List (List Char)) (k : List Char),
      mapLookup (TranslationManager.refreshPacksGo fsys language packs t l).1 k
        = overlayLookup (mapLookup t k)
            ((packs.filter (fun p => p.hasTexts)).map
              (fun p => LangParser.loadTranslations fsys p.path language)) k := by
  intro packs
  induction packs with
  | nil => intro t l k; rfl
  | cons pack rest ih =>
    intro t l k
    simp only [TranslationManager.refreshPacksGo]
    cases hht : pack.hasTexts with
    | false =>
      refine Eq.trans (ih t l k) ?_
      simp [List.filter_cons, hht]
    | true =>
      refine Eq.trans (ih (spread t (LangParser.loadTranslations fsys pack.path language))
        (List.foldl setAdd l (LangParser.findAvailableLanguages fsys pack.textsPath)) k) ?_
      rw [mapLookup_spread,
        lastEntryFor_eq_mapLookup _ k (keysUnique_langParserLoad fsys pack.path language)]
      simp [List.filter_cons, hht, overlayLookup]

/-- Claim C1: a refresh builds its table in fixed precedence order —
the baseline table of the Remote Baseline Cache first, then each
discovered source that has override data, in discovery order, with a
later source's entry for a key replacing any earlier entry: every lookup
in the refreshed table equals the overlay of the per-source lookups over
the baseline lookup.  Concretely, with baseline {k: "base"}, source A
{k: "A", j: "A"} and source B {k: "B"} discovered after A, the refreshed
table maps k to "B" and j to "A". -/
theorem refresh_merge_precedence :
    (∀ (provider : Option ProviderState) (fetch : Except Unit (List Char)) (now : Int)
        (fsys : Fs) (packs : List ResourcePackInfo) (language k : List Char),
        mapLookup (TranslationManager.refresh provider fetch now fsys packs language).translations k
          = overlayLookup (mapLookup (baselineTable provider fetch now language) k)
              ((packs.filter (fun p => p.hasTexts)).map
                (fun p => LangParser.loadTranslations fsys p.path language)) k)
    ∧ mapLookup (baselineTable (some baseProvider) (Except.ok (chars "k=base")) 0 (chars "L"))
        (chars "k") = some ⟨chars "k", chars "base", 1, chars "vanilla:L"⟩
    ∧ mapLookup (TranslationManager.refresh (some baseProvider) (Except.ok (chars "k=base")) 0
          demoFs [packA, packB] (chars "L")).translations (chars "k")
        = some ⟨chars "k", chars "B", 1, chars "/B/texts/L.lang"⟩
    ∧ mapLookup (TranslationManager.refresh (some baseProvider) (Except.ok (chars "k=base")) 0
          demoFs [packA, packB] (chars "L")).translations (chars "j")
        = some ⟨chars "j", chars "A", 2, chars "/A/texts/L.lang"⟩ := by
  refine ⟨?_, by decide, by decide, by decide⟩
  intro provider fetch now fsys packs language k
  cases provider with
  | none => exact refreshPacksGo_lookup fsys language packs [] [] k
  | some st =>
    refine Eq.trans (refreshPacksGo_lookup fsys language packs
      (spread [] (VanillaTranslationProvider.loadTranslations st language now fetch).1) [] k) ?_
    have h1 : mapLookup
        (spread [] (VanillaTranslationProvider.loadTranslations st language now fetch).1) k
        = mapLookup (VanillaTranslationProvider.loadTranslations st language now fetch).1 k := by
      rw [mapLookup_spread,
        lastEntryFor_eq_mapLookup _ k (keysUnique_vanillaLoad st language now fetch)]
      cases mapLookup (VanillaTranslationProvider.loadTranslations st language now fetch).1 k <;>
        rfl
    rw [h1]
    rfl

/-- Claim C3 evaluation: refresh with the vanilla provider installed and
no resource packs yields an empty available-languages list even though
the provider's known-locale list is nonempty, because line 61 of
translationManager.ts calls the async getAvailableLanguages without
await and the forEach on the Promise throws inside the try block; the
baseline table itself, assigned before the throw, survives.  With one
override pack, only that pack's locale is exposed. -/
theorem available_languages_drop_baseline :
    (TranslationManager.refresh (some baseProvider) (Except.ok (chars "k=base")) 0 emptyFs []
        (chars "en_US")).availableLanguages = []
    ∧ sortLocales VanillaTranslationProvider.getAvailableLanguages ≠ []
    ∧ mapLookup (TranslationManager.refresh (some baseProvider) (Except.ok (chars "k=base")) 0
          emptyFs [] (chars "en_US")).translations (chars "k")
        = some ⟨chars "k", chars "base", 1, chars "vanilla:en_US"⟩
    ∧ (TranslationManager.refresh (some baseProvider) (Except.ok (chars "k=base")) 0 demoFs
          [packA] (chars "L")).availableLanguages = [chars "L"] := by decide

theorem containsSub_nil : ∀ s : List Char, containsSub s [] = true := by
  intro s
  cases s <;> simp [containsSub, startsWithL]

theorem searchGo_mem (lowerq : List Char) (limit : Int) :
    ∀ (m acc : List TranslationEntry),
      (∀ e ∈ acc, entryMatches lowerq e = true) →
      ∀ e ∈ searchGo lowerq limit m acc, entryMatches lowerq e = true := by
  intro m
  induction m with
  | nil => intro acc hacc e he; rw [searchGo] at he; exact hacc e he
  | cons x rest ih =>
    intro acc hacc e he
    simp only [searchGo] at he
    split at he
    · exact ih acc hacc e he
    · rename_i hcond
      have hx : entryMatches lowerq x = true := by
        cases hma : entryMatches lowerq x with
        | true => rfl
        | false =>
          exfalso
          apply hcond
          simp only [entryMatches, Bool.or_eq_false_iff] at hma
          simp [hma.1, hma.2]
      have hext : ∀ e' ∈ acc ++ [x], entryMatches lowerq e' = true := by
        intro e' he'
        rcases List.mem_append.mp he' with h1 | h1
        · exact hacc e' h1
        · rw [List.mem_singleton.mp h1]; exact hx
      split at he
      · exact hext e he
      · exact ih (acc ++ [x]) hext e he

theorem searchGo_eq_take (lowerq : List Char) (limit : Int) :
    ∀ (m acc : List TranslationEntry), (acc.length : Int) < limit →
      searchGo lowerq limit m acc
        = acc ++ (m.filter (entryMatches lowerq)).take (limit.toNat - acc.length) := by
  intro m
  induction m with
  | nil => intro acc _; simp [searchGo]
  | cons x rest ih =>
    intro acc hlt
    simp only [searchGo]
    cases hma : entryMatches lowerq x with
    | false =>
      have hcond : (!(containsSub (toLowerL x.key) lowerq)
          && !(containsSub (toLowerL x.value) lowerq)) = true := by
        simp only [entryMatches, Bool.or_eq_false_iff] at hma
        simp [hma.1, hma.2]
      have hf : ¬(entryMatches lowerq x = true) := by simp [hma]
      rw [if_pos hcond, ih acc hlt, List.filter_cons, if_neg hf]
    | true =>
      have hcond : ¬((!(containsSub (toLowerL x.key) lowerq)
          && !(containsSub (toLowerL x.value) lowerq)) = true) := by
        simp only [entryMatches, Bool.or_eq_true] at hma
        rcases hma with h | h <;> simp [h]
      rw [if_neg hcond, List.filter_cons, if_pos hma]
      by_cases hge : (((acc ++ [x]).length : Nat) : Int) ≥ limit
      · rw [if_pos hge]
        have hlim : limit.toNat - acc.length = 1 := by
          simp only [List.length_append, List.length_singleton] at hge
          omega
        rw [hlim, List.take_succ_cons, List.take_zero]
      · rw [if_neg hge]
        have hlt2 : (((acc ++ [x]).length : Nat) : Int) < limit := by omega
        rw [ih (acc ++ [x]) hlt2]
        have h2 : limit.toNat - acc.length = (limit.toNat - (acc ++ [x]).length) + 1 := by
          simp only [List.length_append, List.length_singleton] at hge ⊢
          omega
        rw [h2, List.take_succ_cons, List.append_assoc]
        rfl

theorem search_eq_take (m : TranslationMap) (q : List Char) (limit : Int) (h : 1 ≤ limit) :
    TranslationManager.searchTranslations m q limit
      = (m.filter (entryMatches (toLowerL q))).take limit.toNat := by
  have h1 := searchGo_eq_take (toLowerL q) limit m [] (by simpa using h)
  simpa [TranslationManager.searchTranslations] using h1

/-- Claim C8 counterexample: at limit 0 a search does not return at most
limit entries — the loop pushes a match before checking the limit, so a
table with two matches returns one entry, not zero. -/
theorem search_limit_zero_counterexample :
    TranslationManager.searchTranslations twoWorldMap (chars "WORLD") 0
      = [⟨chars "greet", chars "Hello world", 1, chars "f"⟩]
    ∧ ¬((TranslationManager.searchTranslations twoWorldMap (chars "WORLD") 0).length ≤ 0) := by
  decide

/-- Claim C8 as amended: for every limit, search returns only entries
whose key or value contains the query case-insensitively; for every
limit ≥ 1 it returns at most limit entries, stopping as soon as limit
matches are found — the result is exactly the first limit matches; and
on a table with two entries containing "world" in their values,
search("WORLD", 1) returns exactly one entry. -/
theorem search_matches_and_bounded :
    (∀ (m : TranslationMap) (q : List Char) (limit : Int),
        ∀ e ∈ TranslationManager.searchTranslations m q limit,
          entryMatches (toLowerL q) e = true)
    ∧ (∀ (m : TranslationMap) (q : List Char) (limit : Int), 1 ≤ limit →
        TranslationManager.searchTranslations m q limit
          = (m.filter (entryMatches (toLowerL q))).take limit.toNat
        ∧ ((TranslationManager.searchTranslations m q limit).length : Int) ≤ limit)
    ∧ (TranslationManager.searchTranslations twoWorldMap (chars "WORLD") 1).length = 1 := by
  refine ⟨?_, ?_, by decide⟩
  · intro m q limit e he
    exact searchGo_mem (toLowerL q) limit m [] (by simp) e he
  · intro m q limit h
    refine ⟨search_eq_take m q limit h, ?_⟩
    rw [search_eq_take m q limit h]
    have h1 : ((m.filter (entryMatches (toLowerL q))).take limit.toNat).length ≤ limit.toNat := by
      simp [List.length_take]
    omega

/-- Witness for the amended C8 at the two-entry table and limit 5. -/
theorem search_matches_and_bounded_witness :
    entryMatches (toLowerL (chars "WORLD"))
        ⟨chars "greet", chars "Hello world", 1, chars "f"⟩ = true
    ∧ ((TranslationManager.searchTranslations twoWorldMap (chars "WORLD") 5).length : Int) ≤ 5 :=
  ⟨search_matches_and_bounded.1 twoWorldMap (chars "WORLD") 5
      ⟨chars "greet", chars "Hello world", 1, chars "f"⟩ (by decide),
   (search_matches_and_bounded.2.1 twoWorldMap (chars "WORLD") 5 (by decide)).2⟩

/-- Claim C9 counterexample: search with limit 0 (or a negative limit)
on a table holding a matching entry returns that entry, not the empty
result set the claim asserts. -/
theorem search_invalid_limit_counterexample :
    TranslationManager.searchTranslations oneMap (chars "x") 0
      = [⟨chars "k", chars "x", 1, chars "f"⟩]
    ∧ TranslationManager.searchTranslations oneMap (chars "x") 0 ≠ []
    ∧ TranslationManager.searchTranslations oneMap (chars "x") (-5) ≠ [] := by decide

/-- Claim C9 as amended: search with an invalid limit (zero or negative)
still never raises — the embedded operation is total — but instead of an
empty result set it returns the first matching entry when one exists,
because the limit check only runs after a match has been pushed. -/
theorem search_invalid_limit_first_match :
    ∀ (m : TranslationMap) (q : List Char) (limit : Int), limit ≤ 0 →
      TranslationManager.searchTranslations m q limit
        = (m.filter (entryMatches (toLowerL q))).take 1 := by
  intro m q limit h
  rw [TranslationManager.searchTranslations]
  induction m with
  | nil => rfl
  | cons x rest ih =>
    simp only [searchGo]
    cases hma : entryMatches (toLowerL q) x with
    | false =>
      have hcond : (!(containsSub (toLowerL x.key) (toLowerL q))
          && !(containsSub (toLowerL x.value) (toLowerL q))) = true := by
        simp only [entryMatches, Bool.or_eq_false_iff] at hma
        simp [hma.1, hma.2]
      have hf : ¬(entryMatches (toLowerL q) x = true) := by simp [hma]
      rw [if_pos hcond, List.filter_cons, if_neg hf]
      exact ih
    | true =>
      have hcond : ¬((!(containsSub (toLowerL x.key) (toLowerL q))
          && !(containsSub (toLowerL x.value) (toLowerL q))) = true) := by
        simp only [entryMatches, Bool.or_eq_true] at hma
        rcases hma with h1 | h1 <;> simp [h1]
      rw [if_neg hcond, List.filter_cons, if_pos hma]
      have hge : ((([] ++ [x] : List TranslationEntry).length : Nat) : Int) ≥ limit := by
        simp only [List.nil_append, List.length_singleton]
        omega
      rw [if_pos hge, List.take_succ_cons, List.take_zero]
      rfl

/-- Witness for the amended C9 at the one-entry table and limit 0. -/
theorem search_invalid_limit_first_match_witness :
    TranslationManager.searchTranslations oneMap (chars "x") 0
      = (oneMap.filter (entryMatches (toLowerL (chars "x")))).take 1 :=
  search_invalid_limit_first_match oneMap (chars "x") 0 (by decide)

/-- Claim C10: for every table and every limit ≥ 1, search with the
empty query returns exactly min(limit, size of table) entries, since the
empty string is a substring of every key and value. -/
theorem search_empty_query_min :
    ∀ (m : TranslationMap) (limit : Int), 1 ≤ limit →
      (TranslationManager.searchTranslations m (chars "") limit).length
        = min limit.toNat m.length := by
  intro m limit h
  rw [search_eq_take m (chars "") limit h]
  have hall : m.filter (entryMatches (toLowerL (chars ""))) = m := by
    apply List.filter_eq_self.mpr
    intro e _
    have h0 : toLowerL (chars "") = [] := rfl
    simp [entryMatches, h0, containsSub_nil]
  rw [hall, List.length_take]

/-- Witness for C10 at the two-entry table and limit 5. -/
theorem search_empty_query_min_witness :
    (1 : Int) ≤ 5
    ∧ (TranslationManager.searchTranslations twoWorldMap (chars "") 5).length
        = min (5 : Int).toNat twoWorldMap.length :=
  ⟨by decide, search_empty_query_min twoWorldMap 5 (by decide)⟩
